import Mathlib

/-!
Verification of the terminal-editor session model (`src/terminal-executor.ts`,
the `Terminal`/`ANSIText` implementation).

Conventions of the shallow embedding:
* JavaScript strings are modelled as `List Char` (every character involved is a
  single UTF-16 code unit, so JS `.length` and list length agree).
* JS numbers that hold integers are `Nat` or `Int` as appropriate
  (`Int` where the source can produce negative values, e.g. exit codes).
* External effects (spawning, killing, event callbacks, timers, promises) are
  modelled as explicit data: `run` returns the new state plus a list of
  `Action`s it performed; wall-clock reads (`new Date()`, `Date.now()`) are
  passed in as a `now : Nat` parameter (milliseconds).
* The scanning loops of the source (`while (regex.exec(...))`, index-based
  `while` loops) are written with an explicit fuel argument so that every
  definition is structurally recursive and kernel-evaluable; the fuel is
  `input.length + 1`, which is never exhausted because every loop iteration of
  the source consumes at least one character / advances the index by at least
  one.
-/

namespace TerminalEditor

/-- `MAX_OUTPUT_SIZE` from `terminal-executor.ts` line 6 (`128 * 1024`). -/
def MAX_OUTPUT_SIZE : Nat := 128 * 1024

/-- The closed set of highlight tags (`HighlightRange["tag"]`). -/
inductive Tag where
  | keyword
  | punctuation
  | status_ok
  | status_err
  | time
  | path
  | error
  | ansi_dim
  | ansi_bold
  | ansi_underline
  | ansi_red
  | ansi_green
  | ansi_yellow
  | ansi_blue
  | ansi_magenta
  | ansi_cyan
  | ansi_white
deriving DecidableEq, Repr

/-- `HighlightRange`: tagged span with optional file/line/column (tag `path`).
The source field `end` is a Lean keyword, so it is called `endPos` here. -/
structure HighlightRange where
  start : Nat
  endPos : Nat
  tag : Tag
  file : Option (List Char) := none
  line : Option Nat := none
  column : Option Nat := none
deriving DecidableEq, Repr

/-- `TextWithRanges`: the uniform return shape of `status()` and `output()`. -/
structure TextWithRanges where
  text : List Char
  ranges : List HighlightRange
deriving DecidableEq, Repr

/-- Token tags of the tokenizer (`Token["tag"]`). -/
inductive TokenTag where
  | word
  | quoted
  | whitespace
deriving DecidableEq, Repr

/-- `Token` of `tokenizeCommand`: a `[start, end)` span of the command string. -/
structure Token where
  start : Nat
  endPos : Nat
  tag : TokenTag
deriving DecidableEq, Repr

/-- `ParsedCommand`: quote-stripped token values plus the optional cursor
token index / intra-token offset. -/
structure ParsedCommand where
  tokens : List (List Char)
  cursorTokenIndex : Option Nat
  cursorTokenOffset : Option Nat
deriving DecidableEq, Repr

/-! ### ANSI decoder (`ANSIText.processANSI` and helpers) -/

/-- State of the `processANSI` scanning loop.  `styles` models the insertion
ordered JS `Map styleStartPositions`; the JS `Set currentStyles` is always
exactly the key set of that map, so it is not modelled separately. -/
structure ScanState where
  processed : List Char
  currentPos : Nat
  styles : List (String × Nat)
  ansiRanges : List HighlightRange
  inLineDrawingMode : Bool
deriving DecidableEq, Repr

/-- `convertLineDrawingChars`, per character.  The source converts a chunk via
`text.replace(/./g, ...)`; `.` does not match `\n`, but the switch maps any
unlisted character (including `\n`) to itself, so a per-character map is the
same function. -/
def convertLineDrawingChar (c : Char) : Char :=
  match c with
  | 'q' => '─'
  | 'x' => '│'
  | 'l' => '┌'
  | 'k' => '┐'
  | 'm' => '└'
  | 'j' => '┘'
  | 't' => '├'
  | 'u' => '┤'
  | 'v' => '┴'
  | 'w' => '┬'
  | 'n' => '┼'
  | _ => c

/-- Append one literal character of raw input to the decoded output. -/
def emitChar (c : Char) (st : ScanState) : ScanState :=
  { st with
    processed := st.processed ++ [if st.inLineDrawingMode then convertLineDrawingChar c else c],
    currentPos := st.currentPos + 1 }

/-- `styleToTag`. -/
def styleToTag (style : String) : Tag :=
  match style with
  | "dim" => .ansi_dim
  | "bold" => .ansi_bold
  | "underline" => .ansi_underline
  | "red" => .ansi_red
  | "green" => .ansi_green
  | "yellow" => .ansi_yellow
  | "blue" => .ansi_blue
  | "magenta" => .ansi_magenta
  | "cyan" => .ansi_cyan
  | "white" => .ansi_white
  | _ => .ansi_dim

/-- `Map.delete` on the insertion-ordered association list (keys are unique,
so deleting the first occurrence is `Map.delete`). -/
def removeKey (k : String) : List (String × Nat) → List (String × Nat)
  | [] => []
  | (k', v) :: rest => if k' = k then rest else (k', v) :: removeKey k rest

/-- `closeStyle` of `processANSICode`: emit a range for `style` if it is open
and non-empty, and delete it from the open-style map. -/
def closeStyle (style : String) (st : ScanState) : ScanState :=
  match st.styles.lookup style with
  | some startPos =>
    { st with
      ansiRanges :=
        if startPos < st.currentPos then
          st.ansiRanges ++ [⟨startPos, st.currentPos, styleToTag style, none, none, none⟩]
        else st.ansiRanges,
      styles := removeKey style st.styles }
  | none => st

/-- `openStyle` of `processANSICode`: record the style's start position if it
is not already open. -/
def openStyle (style : String) (st : ScanState) : ScanState :=
  if (st.styles.lookup style).isSome then st
  else { st with styles := st.styles ++ [(style, st.currentPos)] }

/-- The fixed color list of `closeColorStyles`. -/
def colorStyles : List String :=
  ["red", "green", "yellow", "blue", "magenta", "cyan", "white"]

/-- `closeColorStyles`: close every currently open foreground color. -/
def closeColorStyles (st : ScanState) : ScanState :=
  colorStyles.foldl (fun s c => closeStyle c s) st

/-- `processANSICode`.  `code` is `parseInt` of one SGR parameter: `none` is
`NaN` (empty parameter), which matches no switch case.  Code `0` iterates the
live `currentStyles` set; closing the visited element while iterating visits
exactly the original elements in insertion order, i.e. a fold over the keys. -/
def processANSICode (st : ScanState) (code : Option Nat) : ScanState :=
  match code with
  | none => st
  | some 0 => (st.styles.map Prod.fst).foldl (fun s k => closeStyle k s) st
  | some 1 => openStyle "bold" st
  | some 2 => openStyle "dim" st
  | some 4 => openStyle "underline" st
  | some 22 => closeStyle "dim" (closeStyle "bold" st)
  | some 24 => closeStyle "underline" st
  | some 30 => closeColorStyles st
  | some 31 => openStyle "red" (closeColorStyles st)
  | some 32 => openStyle "green" (closeColorStyles st)
  | some 33 => openStyle "yellow" (closeColorStyles st)
  | some 34 => openStyle "blue" (closeColorStyles st)
  | some 35 => openStyle "magenta" (closeColorStyles st)
  | some 36 => openStyle "cyan" (closeColorStyles st)
  | some 37 => openStyle "white" (closeColorStyles st)
  | some 39 => closeColorStyles st
  | some _ => st

/-- JS `String.prototype.split(sep)` for a single-character separator. -/
def splitOnChar (sep : Char) : List Char → List (List Char)
  | [] => [[]]
  | c :: rest =>
    match splitOnChar sep rest with
    | [] => [[]]
    | r :: rs => if c = sep then [] :: r :: rs else (c :: r) :: rs

/-- Decimal value of a digit run. -/
def digitsToNat (ds : List Char) : Nat :=
  ds.foldl (fun a c => a * 10 + (c.toNat - 48)) 0

/-- `parseInt(segment, 10)` for one SGR parameter segment.  Segments come from
splitting a `[0-9;]*` match on `;`, so a segment is a (possibly empty) digit
run; `parseInt("")` is `NaN`, modelled as `none`. -/
def parseIntSeg (seg : List Char) : Option Nat :=
  if seg.isEmpty then none else some (digitsToNat seg)

/-- Apply one SGR escape `ESC [ params m`: split `params` on `;`, `parseInt`
each piece, and run `processANSICode` on each code in order. -/
def applySGR (params : List Char) (st : ScanState) : ScanState :=
  ((splitOnChar ';' params).map parseIntSeg).foldl processANSICode st

/-- The two escape forms of `ansiRegex = /\x1b(?:\[([0-9;]*)m|\(([0B]))/`. -/
inductive EscSeq where
  | sgr (params : List Char)
  | charset (c : Char)
deriving DecidableEq, Repr

/-- Try to match the regex continuation right after an `ESC` byte; returns the
matched alternative plus the number of characters consumed after the `ESC`.
`[0-9;]*` is greedy and `m` is not in the class, so the maximal run followed
by a required `m` is exactly the backtracking regex semantics. -/
def matchEscape (rest : List Char) : Option (EscSeq × Nat) :=
  match rest with
  | '[' :: rs =>
    let params := rs.takeWhile (fun c => c.isDigit || c = ';')
    (match rs.drop params.length with
     | 'm' :: _ => some (.sgr params, params.length + 2)
     | _ => none)
  | '(' :: '0' :: _ => some (.charset '0', 2)
  | '(' :: 'B' :: _ => some (.charset 'B', 2)
  | _ => none

/-- The scanning loop of `processANSI`: positions where the regex does not
match (including a lone `ESC` with an invalid continuation) are literal text;
a matched escape updates the style/charset state and emits nothing. -/
def scanANSI : Nat → List Char → ScanState → ScanState
  | _, [], st => st
  | 0, _ :: _, st => st
  | fuel + 1, c :: rest, st =>
    if c = '\x1b' then
      match matchEscape rest with
      | some (.sgr params, n) => scanANSI fuel (rest.drop n) (applySGR params st)
      | some (.charset ch, n) =>
        scanANSI fuel (rest.drop n) { st with inLineDrawingMode := ch = '0' }
      | none => scanANSI fuel rest (emitChar c st)
    else scanANSI fuel rest (emitChar c st)

/-- The scan of the complete raw input, from the initial state. -/
def ansiScan (raw : List Char) : ScanState :=
  scanANSI (raw.length + 1) raw ⟨[], 0, [], [], false⟩

/-! #### `detectHighlightRanges`: the two secondary regex passes -/

/-- JS `\s`: ASCII whitespace plus the Unicode white-space code points
(NBSP, Ogham space mark, the U+2000–U+200A range, line/paragraph separators,
narrow no-break space, medium mathematical space, ideographic space, BOM). -/
def isJsSpace (c : Char) : Bool :=
  c = ' ' || c = '\t' || c = '\n' || c = '\r' || c = '\x0b' || c = '\x0c' ||
  c = '\u00A0' || c = '\u1680' || ('\u2000' ≤ c && c ≤ '\u200A') ||
  c = '\u2028' || c = '\u2029' || c = '\u202F' || c = '\u205F' ||
  c = '\u3000' || c = '\uFEFF'

/-- The character class `[^\s:]` of the file-path pattern. -/
def isAChar (c : Char) : Bool :=
  !(isJsSpace c) && c != ':'

/-- JS `\w` (word character), for the `\b` boundary of the error pattern. -/
def isWordChar (c : Char) : Bool :=
  c.isAlphanum || c = '_'

/-- Match the tail `[a-zA-Z]+ : \d+ : \d+` of the file-path pattern starting
at `u` (right after the dot).  Returns `(extLen, tailLen, line, column)`.
Each `+` is greedy; the following required `:` (or end of pattern) is not in
the preceding class, so the maximal run needs no backtracking. -/
def tryTail (u : List Char) : Option (Nat × Nat × Nat × Nat) :=
  let ext := u.takeWhile Char.isAlpha
  if ext.isEmpty then none
  else
    match u.drop ext.length with
    | ':' :: v =>
      let d1 := v.takeWhile Char.isDigit
      if d1.isEmpty then none
      else
        match v.drop d1.length with
        | ':' :: w =>
          let d2 := w.takeWhile Char.isDigit
          if d2.isEmpty then none
          else some (ext.length, ext.length + 1 + d1.length + 1 + d2.length,
                     digitsToNat d1, digitsToNat d2)
        | _ => none
    | _ => none

/-- Backtracking over the split point of `[^\s:]+ \.` : the greedy run is
shortened from the right, so the dot positions are tried in decreasing order;
`a + 1` is the candidate length of the `[^\s:]+` part (the dot sits at index
`a + 1`).  Returns `(matchLen, fileLen, line, column)` where `fileLen` is the
length of capture group 1. -/
def tryDotAt (s : List Char) : Nat → Option (Nat × Nat × Nat × Nat)
  | 0 => none
  | a + 1 =>
    if s.get? (a + 1) = some '.' then
      match tryTail (s.drop (a + 2)) with
      | some (extLen, tailLen, line, col) =>
        some (a + 2 + tailLen, a + 2 + extLen, line, col)
      | none => tryDotAt s a
    else tryDotAt s a

/-- Try the file-path pattern `([^\s:]+\.[a-zA-Z]+):(\d+):(\d+)` at the start
of `s`. -/
def tryFilePath (s : List Char) : Option (Nat × Nat × Nat × Nat) :=
  let runLen := (s.takeWhile isAChar).length
  if runLen = 0 then none else tryDotAt s (runLen - 1)

/-- The `filePathPattern.exec` loop: find matches left to right, resuming
after each match (`lastIndex = index + matchLen`; matches are never empty,
`max · 1` only serves the fuel argument). -/
def findFPGo : Nat → List Char → Nat → List HighlightRange
  | 0, _, _ => []
  | fuel + 1, s, i =>
    if i < s.length then
      match tryFilePath (s.drop i) with
      | some (len, fileLen, line, col) =>
        ⟨i, i + len, .path, some ((s.drop i).take fileLen), some line, some col⟩
          :: findFPGo fuel s (i + max len 1)
      | none => findFPGo fuel s (i + 1)
    else []

/-- Try the error pattern `\berror\s*:` (case-insensitive) at the start of
`s`, where `prev` is the character before `s` (for the word boundary). -/
def tryErrorAt (prev : Option Char) (s : List Char) : Option Nat :=
  if (match prev with | none => true | some c => !(isWordChar c)) then
    match s with
    | a :: b :: c :: d :: e :: rest =>
      if a.toLower = 'e' && b.toLower = 'r' && c.toLower = 'r' &&
         d.toLower = 'o' && e.toLower = 'r' then
        let w := rest.takeWhile isJsSpace
        match rest.drop w.length with
        | ':' :: _ => some (5 + w.length + 1)
        | _ => none
      else none
    | _ => none
  else none

/-- The `errorPattern.exec` loop. -/
def findErrGo : Nat → List Char → Nat → List HighlightRange
  | 0, _, _ => []
  | fuel + 1, s, i =>
    if i < s.length then
      match tryErrorAt (if i = 0 then none else (s.drop (i - 1)).head?) (s.drop i) with
      | some len =>
        ⟨i, i + len, .error, none, none, none⟩ :: findErrGo fuel s (i + max len 1)
      | none => findErrGo fuel s (i + 1)
    else []

/-- `detectHighlightRanges`: file-path ranges first, then error ranges, in
match order — exactly the push order of the source. -/
def detectHighlightRanges (text : List Char) : List HighlightRange :=
  findFPGo (text.length + 1) text 0 ++ findErrGo (text.length + 1) text 0

/-- Stable insertion: place `r` before the first element whose `start` is not
strictly smaller.  `sortByStart` inserts each element into the sorted rest of
the list, so the inserted element precedes every equal-`start` element already
there (which all came later in the original list) — preserving tie order. -/
def insertByStart (r : HighlightRange) : List HighlightRange → List HighlightRange
  | [] => [r]
  | y :: ys => if y.start < r.start then y :: insertByStart r ys else r :: y :: ys

/-- `ranges.sort((a, b) => a.start - b.start)`: a stable ascending sort by
`start` (JS `Array.prototype.sort` is stable; a stable sort is unique, so any
stable implementation computes the same list). -/
def sortByStart : List HighlightRange → List HighlightRange
  | [] => []
  | r :: rs => insertByStart r (sortByStart rs)

/-- `processANSI`, as a function of the retained raw input: the decoded text
and the final range list (open styles closed at end of input when non-empty,
secondary detection appended, then the stable sort by start). -/
def processANSI (raw : List Char) : List Char × List HighlightRange :=
  let st := ansiScan raw
  let closed := st.ansiRanges ++ st.styles.filterMap (fun sp =>
    if sp.2 < st.currentPos then
      some ⟨sp.2, st.currentPos, styleToTag sp.1, none, none, none⟩
    else none)
  (st.processed, sortByStart (closed ++ detectHighlightRanges st.processed))

/-! ### `ANSIText` -/

/-- `ANSIText`: retained raw input plus the memoized recomputation results. -/
structure ANSIText where
  rawInput : List Char
  resultingText : List Char
  ranges : List HighlightRange
deriving DecidableEq, Repr

/-- `new ANSIText()`: all fields start empty. -/
def ANSIText.new : ANSIText := ⟨[], [], []⟩

/-- `append(input)`: concatenate onto the retained raw input and fully
recompute `resultingText`/`ranges` via `processANSI`. -/
def ANSIText.append (a : ANSIText) (input : List Char) : ANSIText :=
  let raw := a.rawInput ++ input
  ⟨raw, (processANSI raw).1, (processANSI raw).2⟩

/-- `getResultingText()`. -/
def ANSIText.getResultingText (a : ANSIText) : List Char := a.resultingText

/-- `getTextWithRanges()`. -/
def ANSIText.getTextWithRanges (a : ANSIText) : TextWithRanges :=
  ⟨a.resultingText, a.ranges⟩

/-! ### Command tokenizer and parser -/

/-- The whitespace test of the tokenizer (`" "` or `"\t"`). -/
def isWS (c : Char) : Bool := c = ' ' || c = '\t'

/-- JS `command.slice(a, b)` (all uses have `0 ≤ a ≤ b`). -/
def jsSlice (l : List Char) (a b : Nat) : List Char :=
  (l.drop a).take (b - a)

/-- The `while (i < command.length)` loop of `tokenizeCommand`: each pass
emits one whitespace, quoted, or word token and advances `i` past it.  (The
`console.assert` checks of the source are assertions only and are omitted.) -/
def tokenizeGo : Nat → List Char → Nat → List Token
  | _, [], _ => []
  | 0, _ :: _, _ => []
  | fuel + 1, c :: rest, i =>
    if isWS c then
      let ws := (c :: rest).takeWhile isWS
      ⟨i, i + ws.length, .whitespace⟩ :: tokenizeGo fuel ((c :: rest).drop ws.length) (i + ws.length)
    else if c = '"' then
      let content := rest.takeWhile (fun ch => ch ≠ '"')
      let rem := rest.drop content.length
      let consumed := 1 + content.length + (if rem.isEmpty then 0 else 1)
      ⟨i, i + consumed, .quoted⟩ :: tokenizeGo fuel ((c :: rest).drop consumed) (i + consumed)
    else
      let w := (c :: rest).takeWhile (fun ch => !isWS ch)
      ⟨i, i + w.length, .word⟩ :: tokenizeGo fuel ((c :: rest).drop w.length) (i + w.length)

/-- `tokenizeCommand(command)`. -/
def tokenizeCommand (command : List Char) : List Token :=
  tokenizeGo (command.length + 1) command 0

/-- The quoted-token value extraction of `parseCommand`: strip the opening
quote, and the closing quote when present; a quoted token of length 1 (the
lone `"` character) falls into the `else` branch and is returned whole. -/
def quotedValue (fullText : List Char) : List Char :=
  if fullText.head? = some '"' ∧ 1 < fullText.length then
    if fullText.getLast? = some '"' then (fullText.drop 1).dropLast
    else fullText.drop 1
  else fullText

/-- `cursorPosition !== undefined && cursorPosition >= token.start &&
cursorPosition < token.end`. -/
def cursorIn (cp : Option Nat) (tk : Token) : Bool :=
  match cp with
  | some p => tk.start ≤ p && p < tk.endPos
  | none => false

/-- Loop state of `parseCommand`'s `for (const token of allTokens)` pass. -/
structure ParseState where
  tokens : List (List Char)
  cursorTokenIndex : Option Nat
  cursorTokenOffset : Option Nat
  currentTokenIndex : Nat
deriving DecidableEq, Repr

/-- One iteration of the `parseCommand` token loop. -/
def parseStep (command : List Char) (cursorPosition : Option Nat)
    (st : ParseState) (token : Token) : ParseState :=
  if token.tag = .whitespace then
    if cursorIn cursorPosition token then
      { st with cursorTokenIndex := none, cursorTokenOffset := none }
    else st
  else
    let fullText := jsSlice command token.start token.endPos
    let tokenValue := if token.tag = .quoted then quotedValue fullText else fullText
    let withTok := { st with tokens := st.tokens ++ [tokenValue] }
    let withCursor :=
      if cursorIn cursorPosition token then
        { withTok with
          cursorTokenIndex := some st.currentTokenIndex,
          cursorTokenOffset := some (
            if token.tag = .quoted then
              if cursorPosition = some token.start then 0
              else cursorPosition.getD 0 - token.start - 1
            else cursorPosition.getD 0 - token.start) }
      else withTok
    { withCursor with currentTokenIndex := st.currentTokenIndex + 1 }

/-- `parseCommand(command, cursorPosition?)`. -/
def parseCommand (command : List Char) (cursorPosition : Option Nat) : ParsedCommand :=
  let allTokens := tokenizeCommand command
  let st := allTokens.foldl (parseStep command cursorPosition) ⟨[], none, none, 0⟩
  let final :=
    if cursorPosition = some command.length then
      match allTokens.getLast? with
      | none => ((none : Option Nat), (none : Option Nat))
      | some tk =>
        if tk.tag = .whitespace then (none, none)
        else if st.tokens.length ≠ 0 then
          (some (st.tokens.length - 1), some ((st.tokens.getLastD []).length))
        else (st.cursorTokenIndex, st.cursorTokenOffset)
    else (st.cursorTokenIndex, st.cursorTokenOffset)
  ⟨st.tokens, final.1, final.2⟩

/-! ### Terminal session model -/

/-- `ProcessInfo`.  `process` is the opaque OS handle (an id in the model);
`completion`, the promise resolver and the interval handle are external
effects and carry no observable state of their own. -/
structure ProcessInfo where
  process : Nat
  startTime : Nat
  endTime : Option Nat
  exitCode : Option Int
  stdout : ANSIText
  stderr : ANSIText
  commandLine : List Char
deriving DecidableEq, Repr

/-- `ProcessInfo.cleanup(code)`: idempotent via the `exitCode` guard; sets
`exitCode` (`undefined` maps to `-1`), clears the runtime interval, fires
`onStateChange` and resolves the completion promise (external effects). -/
def ProcessInfo.cleanup (p : ProcessInfo) (code : Option Int) : ProcessInfo :=
  if p.exitCode ≠ none then p
  else { p with exitCode := some (code.getD (-1)) }

/-- `Terminal` state.  `settings.maxOutputLines()` is the injected pure
accessor, modelled as the field `maxOutputLines`; the `events` callbacks are
external and stateless. -/
structure Terminal where
  currentProcess : Option ProcessInfo
  maxOutputLines : Nat
  workingDirectory : List Char
  folded : Bool
deriving DecidableEq, Repr

/-- Externally visible effects of `run`. -/
inductive Action where
  | kill
  | spawn (program : List Char) (args : List (List Char))
  | showError (message : List Char)
deriving DecidableEq, Repr

/-- `toggleFold()` (the `onStateChange` callback is external). -/
def Terminal.toggleFold (t : Terminal) : Terminal :=
  { t with folded := !t.folded }

/-- `isFolded()`. -/
def Terminal.isFolded (t : Terminal) : Bool := t.folded

/-- `isRunning()`. -/
def Terminal.isRunning (t : Terminal) : Bool :=
  match t.currentProcess with
  | some p => p.exitCode = none
  | none => false

/-- `run(commandString)`: kill and clean up any attached process, parse, and
spawn unless the command has zero tokens.  `now` models `new Date()`, and
`handle` the fresh handle returned by `spawn`. -/
def Terminal.run (t : Terminal) (commandString : List Char) (now : Nat) (handle : Nat) :
    Terminal × List Action :=
  let (t1, acts) :=
    match t.currentProcess with
    | some p =>
      let _ := p.cleanup (some (-1))
      ({ t with currentProcess := none }, [Action.kill])
    | none => (t, ([] : List Action))
  let parsed := parseCommand commandString none
  if parsed.tokens = [] then (t1, acts)
  else
    let processInfo : ProcessInfo :=
      { process := handle
        startTime := now
        endTime := none
        exitCode := none
        stdout := ANSIText.new
        stderr := ANSIText.new
        commandLine := commandString }
    ({ t1 with folded := true, currentProcess := some processInfo },
     acts ++ [Action.spawn (parsed.tokens.headD []) parsed.tokens.tail])

/-- `outputLarge()`. -/
def Terminal.outputLarge (t : Terminal) : Bool :=
  match t.currentProcess with
  | none => false
  | some p =>
    let combinedOutput := p.stdout.getResultingText ++ p.stderr.getResultingText
    let lines := splitOnChar '\n' combinedOutput
    t.maxOutputLines < lines.length

/-- JS `Number.prototype.toString()` for a natural number (decimal digits). -/
def natRepr (n : Nat) : List Char :=
  if _h : n < 10 then [Nat.digitChar n]
  else natRepr (n / 10) ++ [Nat.digitChar (n % 10)]
termination_by n
decreasing_by exact Nat.div_lt_self (by omega) (by omega)

/-- JS `Number.prototype.toString()` / `${...}` for an integer value. -/
def intRepr (i : Int) : List Char :=
  if i < 0 then '-' :: natRepr i.natAbs else natRepr i.toNat

/-- `formatRuntime()`.  `Math.floor(ms / 1000)` on a possibly negative value
is `Int.fdiv`; in the `else` branch `durationSeconds ≥ 60 > 0`, so JS `%`
(truncating remainder) agrees with `Int.emod`. -/
def Terminal.formatRuntime (t : Terminal) (now : Nat) : List Char :=
  match t.currentProcess with
  | none => "0s".data
  | some p =>
    let endTime := p.endTime.getD now
    let durationMs : Int := (endTime : Int) - (p.startTime : Int)
    let durationSeconds : Int := durationMs.fdiv 1000
    if durationSeconds < 60 then intRepr durationSeconds ++ "s".data
    else
      let minutes := durationSeconds.fdiv 60
      let seconds := durationSeconds % 60
      intRepr minutes ++ "m ".data ++ intRepr seconds ++ "s".data

/-- `status()`. -/
def Terminal.status (t : Terminal) (now : Nat) : TextWithRanges :=
  match t.currentProcess with
  | none =>
    ⟨"= =".data,
     [⟨0, 1, .punctuation, none, none, none⟩, ⟨2, 3, .punctuation, none, none, none⟩]⟩
  | some p =>
    let runtime := t.formatRuntime now
    let statusStr : List Char :=
      match p.exitCode with
      | some code => " status: ".data ++ intRepr code
      | none => []
    let ellipsis : List Char := if t.outputLarge then "...".data else []
    let text := "= time: ".data ++ runtime ++ statusStr ++ " ".data ++ ellipsis ++ "=".data
    let runtimeStart := 8
    let runtimeEnd := runtimeStart + runtime.length
    let statusRanges : List HighlightRange :=
      match p.exitCode with
      | some code =>
        let statusKeywordStart := runtimeEnd + 1
        let statusKeywordEnd := statusKeywordStart + 7
        let statusValueStart := statusKeywordEnd + 1
        let statusValueEnd := statusValueStart + (intRepr code).length
        [⟨statusKeywordStart, statusKeywordEnd, .keyword, none, none, none⟩,
         ⟨statusValueStart, statusValueEnd,
          (if code = 0 then .status_ok else .status_err), none, none, none⟩]
      | none => []
    ⟨text,
     [⟨0, 1, .punctuation, none, none, none⟩,
      ⟨2, 7, .keyword, none, none, none⟩,
      ⟨runtimeStart, runtimeEnd, .time, none, none, none⟩]
       ++ statusRanges
       ++ [⟨text.length - 1, text.length, .punctuation, none, none, none⟩]⟩

/-- The combined decoded output of `output()`: stdout text then stderr text. -/
def combinedOutputText (p : ProcessInfo) : List Char :=
  p.stdout.getTextWithRanges.text ++ p.stderr.getTextWithRanges.text

/-- The combined ranges of `output()`: stdout ranges, then stderr ranges
shifted by the stdout text length. -/
def combinedOutputRanges (p : ProcessInfo) : List HighlightRange :=
  p.stdout.getTextWithRanges.ranges ++
    p.stderr.getTextWithRanges.ranges.map (fun r =>
      { r with
        start := r.start + p.stdout.getTextWithRanges.text.length,
        endPos := r.endPos + p.stdout.getTextWithRanges.text.length })

/-- JS `lines.slice(-maxLines)`: for `maxLines = 0` this is `slice(0)`, the
whole array; otherwise the last `maxLines` elements. -/
def jsSliceLast (l : List (List Char)) (n : Nat) : List (List Char) :=
  if n = 0 then l else l.drop (l.length - n)

/-- `joinNL` is `limitedLines.join("\n")`. -/
def joinNL : List (List Char) → List Char
  | [] => []
  | [l] => l
  | l :: l' :: rest => l ++ '\n' :: joinNL (l' :: rest)

/-- `output()`. -/
def Terminal.output (t : Terminal) : TextWithRanges :=
  match t.currentProcess with
  | none => ⟨[], []⟩
  | some p =>
    let combinedText := combinedOutputText p
    let combinedRanges := combinedOutputRanges p
    if !t.folded then ⟨combinedText, combinedRanges⟩
    else
      let lines := splitOnChar '\n' combinedText
      let maxLines := t.maxOutputLines
      if lines.length ≤ maxLines then ⟨combinedText, combinedRanges⟩
      else
        let limitedLines := jsSliceLast lines maxLines
        let text := joinNL limitedLines
        let fullLines := splitOnChar '\n' combinedText
        let truncatedLines := fullLines.length - maxLines
        let truncationOffset := ((fullLines.take truncatedLines).map (fun l => l.length + 1)).sum
        let ranges := (combinedRanges.filter (fun r => truncationOffset ≤ r.start)).map
          (fun r => { r with start := r.start - truncationOffset, endPos := r.endPos - truncationOffset })
        ⟨text, ranges⟩

/-! ## Theorems -/

/-- C1: appending a raw chunk in two pieces leaves the decoder with the same
`resultingText` and the same `ranges` list as appending the concatenation in
one call, for every split `a`/`b` — `append` only concatenates onto
`rawInput` and recomputes both fields from the complete raw input. -/
theorem ansi_incremental_append_agrees (a b : List Char) :
    ((ANSIText.new.append a).append b).resultingText
        = (ANSIText.new.append (a ++ b)).resultingText ∧
    ((ANSIText.new.append a).append b).ranges
        = (ANSIText.new.append (a ++ b)).ranges := by
  simp [ANSIText.append, ANSIText.new]

theorem foldl_append_rawInput (chunks : List (List Char)) :
    ∀ a : ANSIText, (chunks.foldl ANSIText.append a).rawInput
      = chunks.foldl (· ++ ·) a.rawInput := by
  induction chunks with
  | nil => intro a; rfl
  | cons c cs ih => intro a; simpa [ANSIText.append] using ih _

/-- C3 (counterexample): `ANSIText.append` never drops input, so a single
appended chunk of `MAX_OUTPUT_SIZE + 1` characters leaves more than the
claimed 128 KiB ceiling retained in `rawInput`. -/
theorem ansi_rawInput_exceeds_cap :
    MAX_OUTPUT_SIZE <
      (ANSIText.new.append (List.replicate (MAX_OUTPUT_SIZE + 1) 'a')).rawInput.length := by
  simp [ANSIText.append, ANSIText.new]

/-- C3 (amended): `ANSIText.append` imposes no ceiling at all — after any
sequence of appends, `rawInput` is exactly the concatenation of all appended
chunks; nothing is ever dropped or marked truncated at the decoder level. -/
theorem ansi_append_retains_everything (chunks : List (List Char)) :
    (chunks.foldl ANSIText.append ANSIText.new).rawInput
      = chunks.foldl (· ++ ·) [] := by
  simpa [ANSIText.new] using foldl_append_rawInput chunks ANSIText.new

/-- C10: `toggleFold` negates the `folded` flag and touches nothing else:
toggling twice restores the state, and the current `ProcessInfo` (with all
its fields), the settings accessor and the working directory are unchanged. -/
theorem toggleFold_only_flips_folded (t : TerminalEditor.Terminal) :
    t.toggleFold.folded = !t.folded ∧
    t.toggleFold.toggleFold = t ∧
    t.toggleFold.currentProcess = t.currentProcess ∧
    t.toggleFold.maxOutputLines = t.maxOutputLines ∧
    t.toggleFold.workingDirectory = t.workingDirectory := by
  refine ⟨rfl, ?_, rfl, rfl, rfl⟩
  simp [Terminal.toggleFold]

/-- C9: `run` on a command that parses to zero tokens spawns nothing and
surfaces no error — the only emitted action is the kill of a previously
attached process (when there was one) — and it leaves no current
`ProcessInfo` attached. -/
theorem run_zero_tokens_clears (t : Terminal) (cmd : List Char) (now handle : Nat)
    (h : (parseCommand cmd none).tokens = []) :
    (t.run cmd now handle).1.currentProcess = none ∧
    (t.run cmd now handle).2 = (if t.currentProcess.isSome then [Action.kill] else []) := by
  cases hp : t.currentProcess <;> simp [Terminal.run, hp, h]

theorem run_zero_tokens_clears_witness :
    (parseCommand " ".data none).tokens = [] ∧
    ((Terminal.mk (some ⟨7, 100, none, none, ANSIText.new, ANSIText.new, "sleep".data⟩)
        40 "/tmp".data true).run " ".data 5 1).1.currentProcess = none ∧
    ((Terminal.mk (some ⟨7, 100, none, none, ANSIText.new, ANSIText.new, "sleep".data⟩)
        40 "/tmp".data true).run " ".data 5 1).2
      = (if (Terminal.mk (some ⟨7, 100, none, none, ANSIText.new, ANSIText.new, "sleep".data⟩)
            40 "/tmp".data true).currentProcess.isSome then [Action.kill] else []) :=
  ⟨by decide,
   (run_zero_tokens_clears _ " ".data 5 1 (by decide)).1,
   (run_zero_tokens_clears _ " ".data 5 1 (by decide)).2⟩

/-- C2 (code bug): `ProcessInfo.cleanup` — the only exit-path state update in
this implementation — sets `exitCode` but never assigns `endTime`, so after a
`close`/`exit`/`error` event `exitCode` is defined while `endTime` is still
`undefined`, contradicting the documented invariant.  Concretely, running
`"sh"` and letting the process close with code 0 leaves
`(exitCode, endTime) = (some 0, none)`. -/
theorem cleanup_leaves_endTime_unset :
    (∀ (p : ProcessInfo) (code : Option Int), (p.cleanup code).endTime = p.endTime) ∧
    ((((Terminal.mk none 40 [] true).run "sh".data 5 1).1.currentProcess.map
        (fun p => ((p.cleanup (some 0)).exitCode, (p.cleanup (some 0)).endTime)))
      = some (some 0, none)) := by
  constructor
  · intro p code
    unfold ProcessInfo.cleanup
    split <;> rfl
  · decide

/-- C6 (counterexample): the command consisting of the single character `"`
tokenizes to one quoted token whose semantic value is `"` itself, not the
empty string the claim demands (the `fullText.length > 1` guard sends the
lone quote through the `else` branch untouched). -/
theorem lone_quote_keeps_quote_char :
    (parseCommand ['"'] none).tokens = [['"']] ∧ (['"'] : List Char) ≠ ([] : List Char) := by
  exact ⟨by decide, by decide⟩

theorem length_takeWhile_le (p : Char → Bool) :
    ∀ l : List Char, (l.takeWhile p).length ≤ l.length := by
  intro l
  induction l with
  | nil => simp
  | cons c cs ih =>
    rw [List.takeWhile_cons]
    split
    · simpa using ih
    · simp

theorem tokenizeGo_inv_cons (f : Nat) (s : List Char) (i n : Nat) (tag : TokenTag) (tk : Token)
    (hn1 : 1 ≤ n) (hn2 : n ≤ s.length)
    (hq : tag = .quoted → s[0]? = some '"')
    (ih : ∀ (s' : List Char) (i' : Nat) (tk' : Token), tk' ∈ tokenizeGo f s' i' →
      i' ≤ tk'.start ∧ tk'.start < tk'.endPos ∧ tk'.endPos ≤ i' + s'.length ∧
      (tk'.tag = .quoted → s'[tk'.start - i']? = some '"'))
    (hmem : tk ∈ (⟨i, i + n, tag⟩ : Token) :: tokenizeGo f (s.drop n) (i + n)) :
    i ≤ tk.start ∧ tk.start < tk.endPos ∧ tk.endPos ≤ i + s.length ∧
    (tk.tag = .quoted → s[tk.start - i]? = some '"') := by
  rcases List.mem_cons.mp hmem with rfl | hmem'
  · refine ⟨Nat.le_refl _, ?_, ?_, ?_⟩
    · show i < i + n
      omega
    · show i + n ≤ i + s.length
      omega
    · intro hq'
      show s[i - i]? = some '"'
      simpa [Nat.sub_self] using hq hq'
  · obtain ⟨h1, h2, h3, h4⟩ := ih _ _ _ hmem'
    rw [List.length_drop] at h3
    refine ⟨by omega, h2, by omega, ?_⟩
    intro hq'
    have h5 := h4 hq'
    rw [List.getElem?_drop] at h5
    have heq : n + (tk.start - (i + n)) = tk.start - i := by omega
    rwa [heq] at h5

/-- Position invariants of the tokenizer loop: every produced token starts at
or after the scan position, is non-empty, ends within the scanned suffix, and
a quoted token starts at a `"` character. -/
theorem tokenizeGo_inv :
    ∀ (fuel : Nat) (s : List Char) (i : Nat) (tk : Token), tk ∈ tokenizeGo fuel s i →
      i ≤ tk.start ∧ tk.start < tk.endPos ∧ tk.endPos ≤ i + s.length ∧
      (tk.tag = .quoted → s[tk.start - i]? = some '"') := by
  intro fuel
  induction fuel with
  | zero =>
    intro s i tk hmem
    cases s <;> simp [tokenizeGo] at hmem
  | succ f ih =>
    intro s i tk hmem
    cases s with
    | nil => simp [tokenizeGo] at hmem
    | cons c rest =>
      simp only [tokenizeGo] at hmem
      split at hmem
      case isTrue hws =>
        have htw : (c :: rest).takeWhile isWS = c :: rest.takeWhile isWS := by
          rw [List.takeWhile_cons, if_pos hws]
        refine tokenizeGo_inv_cons f (c :: rest) i _ .whitespace tk ?_ ?_ ?_ ih hmem
        · rw [htw]
          simp
        · exact length_takeWhile_le _ _
        · intro h
          exact absurd h (by decide)
      case isFalse hws =>
        split at hmem
        case isTrue hqc =>
          have hcl : (rest.takeWhile (fun ch => ch ≠ '"')).length ≤ rest.length :=
            length_takeWhile_le _ _
          refine tokenizeGo_inv_cons f (c :: rest) i _ .quoted tk ?_ ?_ ?_ ih hmem
          · split <;> omega
          · simp only [List.length_cons]
            split
            · omega
            case isFalse hrem =>
              have hlt : ¬ (rest.length ≤ (rest.takeWhile (fun ch => ch ≠ '"')).length) := by
                intro hle
                apply hrem
                rw [List.isEmpty_iff, List.drop_eq_nil_iff]
                exact hle
              omega
          · intro _
            simp [hqc]
        case isFalse hqc =>
          have htw : (c :: rest).takeWhile (fun ch => !isWS ch)
              = c :: rest.takeWhile (fun ch => !isWS ch) := by
            rw [List.takeWhile_cons, if_pos (by simp [hws])]
          refine tokenizeGo_inv_cons f (c :: rest) i _ .word tk ?_ ?_ ?_ ih hmem
          · rw [htw]
            simp
          · exact length_takeWhile_le _ _
          · intro h
            exact absurd h (by decide)

/-- The token-value extraction of `parseCommand` for one non-whitespace token
(quoted tokens have their quotes stripped, word tokens use the full range). -/
def tokenValueOf (command : List Char) (tk : Token) : List Char :=
  if tk.tag = .quoted then quotedValue (jsSlice command tk.start tk.endPos)
  else jsSlice command tk.start tk.endPos

theorem parseStep_tokens (command : List Char) (cp : Option Nat) (st : ParseState) (tk : Token) :
    (parseStep command cp st tk).tokens
      = st.tokens ++ (if tk.tag = .whitespace then [] else [tokenValueOf command tk]) := by
  unfold parseStep tokenValueOf
  by_cases hws : tk.tag = .whitespace <;>
    by_cases hcur : cursorIn cp tk = true <;>
      simp [hws, hcur]

theorem foldl_parseStep_tokens (command : List Char) (cp : Option Nat) :
    ∀ (toks : List Token) (st : ParseState),
      (toks.foldl (parseStep command cp) st).tokens
        = st.tokens ++ toks.filterMap (fun tk =>
            if tk.tag = .whitespace then none else some (tokenValueOf command tk)) := by
  intro toks
  induction toks with
  | nil => intro st; simp
  | cons tk ts ih =>
    intro st
    rw [List.foldl_cons, ih, parseStep_tokens]
    by_cases hws : tk.tag = .whitespace
    · simp [hws]
    · simp [hws]

/-- The token values of `parseCommand` are exactly the non-whitespace tokens
of the tokenizer, each mapped through the value extraction. -/
theorem parseCommand_tokens (command : List Char) (cp : Option Nat) :
    (parseCommand command cp).tokens
      = (tokenizeCommand command).filterMap (fun tk =>
          if tk.tag = .whitespace then none else some (tokenValueOf command tk)) := by
  unfold parseCommand
  show (List.foldl (parseStep command cp) ⟨[], none, none, 0⟩ (tokenizeCommand command)).tokens = _
  simpa using foldl_parseStep_tokens command cp (tokenizeCommand command) ⟨[], none, none, 0⟩

/-- C6 (amended): for every command whose tokenization ends in a quoted token
reaching the end of the string while the command does not end in a `"` — i.e.
every command containing an unterminated double quote with at least one
character after it — the semantic value of that quoted token (the last
element of `parseCommand(command).tokens`) is exactly the characters after
the opening quote up to end of string; only the degenerate quoted token that
is the single character `"` keeps the quote itself as its value. -/
theorem unterminated_quote_value (command : List Char) (tk : Token)
    (hlast : (tokenizeCommand command).getLast? = some tk)
    (htag : tk.tag = .quoted)
    (hend : tk.endPos = command.length)
    (hnq : command.getLast? ≠ some '"') :
    (parseCommand command none).tokens.getLast?
      = some (jsSlice command (tk.start + 1) command.length) := by
  have hne : tokenizeCommand command ≠ [] := by
    intro h
    rw [h] at hlast
    simp at hlast
  have hgl : (tokenizeCommand command).getLast hne = tk := by
    rw [List.getLast?_eq_getLast _ hne] at hlast
    exact Option.some.inj hlast
  have hdec : (tokenizeCommand command).dropLast ++ [tk] = tokenizeCommand command := by
    rw [← hgl]
    exact List.dropLast_append_getLast hne
  have hmem : tk ∈ tokenizeCommand command := by
    rw [← hgl]
    exact List.getLast_mem hne
  obtain ⟨-, hlt, hle, hq⟩ := tokenizeGo_inv (command.length + 1) command 0 tk hmem
  have hq' : command[tk.start]? = some '"' := by
    simpa using hq htag
  have hstart : tk.start < command.length := by omega
  have hft : jsSlice command tk.start tk.endPos = command.drop tk.start := by
    unfold jsSlice
    rw [hend, ← List.length_drop]
    exact List.take_length _
  have hhead : (command.drop tk.start).head? = some '"' := by
    rw [List.head?_eq_getElem?, List.getElem?_drop, Nat.add_zero]
    exact hq'
  have hdne : command.drop tk.start ≠ [] := by
    rw [ne_eq, List.drop_eq_nil_iff]
    omega
  have hglast : (command.drop tk.start).getLast? = command.getLast? := by
    conv_rhs => rw [← List.take_append_drop tk.start command]
    exact (List.getLast?_append_of_ne_nil _ hdne).symm
  have hlen2 : 1 < (command.drop tk.start).length := by
    rcases hdx : command.drop tk.start with _ | ⟨x, xs⟩
    · exact absurd hdx hdne
    · rcases xs with _ | ⟨y, ys⟩
      · exfalso
        apply hnq
        rw [← hglast, hdx]
        rw [hdx] at hhead
        simpa using hhead
      · simp
  have hqv : quotedValue (command.drop tk.start) = (command.drop tk.start).drop 1 := by
    unfold quotedValue
    rw [if_pos ⟨hhead, hlen2⟩, if_neg (by rw [hglast]; exact hnq)]
  have hdd : (command.drop tk.start).drop 1 = jsSlice command (tk.start + 1) command.length := by
    rw [List.drop_drop]
    unfold jsSlice
    rw [← List.length_drop]
    exact (List.take_length _).symm
  rw [parseCommand_tokens, ← hdec, List.filterMap_append]
  have hfm : List.filterMap (fun tk =>
      if tk.tag = .whitespace then none else some (tokenValueOf command tk)) [tk]
      = [tokenValueOf command tk] := by
    simp [htag]
  rw [hfm, List.getLast?_concat]
  unfold tokenValueOf
  rw [if_pos htag, hft, hqv, hdd]

theorem unterminated_quote_value_witness :
    ((tokenizeCommand "echo \"abc".data).getLast? = some ⟨5, 9, .quoted⟩) ∧
    ((⟨5, 9, .quoted⟩ : Token).tag = .quoted) ∧
    ((⟨5, 9, .quoted⟩ : Token).endPos = "echo \"abc".data.length) ∧
    ("echo \"abc".data.getLast? ≠ some '"') ∧
    ((parseCommand "echo \"abc".data none).tokens.getLast?
      = some (jsSlice "echo \"abc".data (5 + 1) "echo \"abc".data.length)) ∧
    jsSlice "echo \"abc".data (5 + 1) "echo \"abc".data.length = "abc".data :=
  ⟨by decide, by decide, by decide, by decide,
   unterminated_quote_value _ ⟨5, 9, .quoted⟩ (by decide) (by decide) (by decide) (by decide),
   by decide⟩

theorem mem_insertByStart (r a : HighlightRange) (l : List HighlightRange) :
    a ∈ insertByStart r l ↔ a = r ∨ a ∈ l := by
  induction l with
  | nil => simp [insertByStart]
  | cons y ys ih =>
    simp only [insertByStart]
    split
    · simp only [List.mem_cons, ih]
      tauto
    · simp only [List.mem_cons]

theorem mem_sortByStart (a : HighlightRange) (l : List HighlightRange) :
    a ∈ sortByStart l ↔ a ∈ l := by
  induction l with
  | nil => simp [sortByStart]
  | cons y ys ih => simp [sortByStart, mem_insertByStart, ih]

/-- C7 (counterexample): appending `"\x1b[1m"` alone leaves the `bold` style
open at end of input with its start position equal to the final output
position, and the decoder emits no range at all for it (the
`startPos < currentPos` guard drops the empty span), refuting the claim that
every still-open style produces a range. -/
theorem open_style_at_eof_dropped :
    (ansiScan "\x1b[1m".data).styles = [("bold", 0)] ∧
    (ANSIText.new.append "\x1b[1m".data).ranges = [] :=
  ⟨by decide, by decide⟩

/-- C7 (amended): every ANSI style still open at end of input whose recorded
start offset lies strictly before the final output position is closed there
and does emit its `ansi_<style>` range; only zero-width open styles (opened
exactly at the final position) are dropped. -/
theorem open_styles_close_at_eof (raw : List Char) (style : String) (startPos : Nat)
    (h1 : (style, startPos) ∈ (ansiScan raw).styles)
    (h2 : startPos < (ansiScan raw).currentPos) :
    (⟨startPos, (ansiScan raw).currentPos, styleToTag style, none, none, none⟩ : HighlightRange)
      ∈ (processANSI raw).2 := by
  simp only [processANSI, mem_sortByStart, List.mem_append]
  left
  right
  apply List.mem_filterMap.mpr
  exact ⟨(style, startPos), h1, by simp [h2]⟩

theorem open_styles_close_at_eof_witness :
    ("bold", 0) ∈ (ansiScan "\x1b[1mbold".data).styles ∧
    0 < (ansiScan "\x1b[1mbold".data).currentPos ∧
    (⟨0, (ansiScan "\x1b[1mbold".data).currentPos, styleToTag "bold", none, none, none⟩ :
        HighlightRange)
      ∈ (processANSI "\x1b[1mbold".data).2 :=
  ⟨by decide, by decide, open_styles_close_at_eof _ "bold" 0 (by decide) (by decide)⟩

theorem parseStep_sync (command : List Char) (cp : Option Nat) (st : ParseState) (tk : Token)
    (h : st.cursorTokenIndex.isSome = st.cursorTokenOffset.isSome) :
    ((parseStep command cp st tk).cursorTokenIndex).isSome
      = ((parseStep command cp st tk).cursorTokenOffset).isSome := by
  unfold parseStep
  split
  · split
    · rfl
    · exact h
  · split <;> split <;> first | rfl | exact h

theorem foldl_parseStep_sync (command : List Char) (cp : Option Nat) :
    ∀ (toks : List Token) (st : ParseState),
      st.cursorTokenIndex.isSome = st.cursorTokenOffset.isSome →
      (((toks.foldl (parseStep command cp) st).cursorTokenIndex).isSome
        = ((toks.foldl (parseStep command cp) st).cursorTokenOffset).isSome) := by
  intro toks
  induction toks with
  | nil => intro st h; exact h
  | cons tk ts ih => intro st h; exact ih _ (parseStep_sync _ _ _ _ h)

/-- C8: for every command string and cursor position within it, the
`ParsedCommand` has `cursorTokenIndex` defined exactly when
`cursorTokenOffset` is defined — every assignment in the loop and in the
end-of-command adjustment sets or clears the two fields together. -/
theorem cursor_fields_defined_together (command : List Char) (cursorPos : Nat)
    (hcp : cursorPos ≤ command.length) :
    (parseCommand command (some cursorPos)).cursorTokenIndex.isSome
      = (parseCommand command (some cursorPos)).cursorTokenOffset.isSome := by
  have _ := hcp
  have hst := foldl_parseStep_sync command (some cursorPos) (tokenizeCommand command)
      ⟨[], none, none, 0⟩ rfl
  simp only [parseCommand]
  split
  · split
    · rfl
    · split
      · rfl
      · split
        · rfl
        · exact hst
  · exact hst

theorem cursor_fields_defined_together_witness :
    1 ≤ "git".data.length ∧
    ((parseCommand "git".data (some 1)).cursorTokenIndex.isSome
      = (parseCommand "git".data (some 1)).cursorTokenOffset.isSome) :=
  ⟨by decide, cursor_fields_defined_together "git".data 1 (by decide)⟩

theorem splitOnChar_ne_nil (sep : Char) (s : List Char) : splitOnChar sep s ≠ [] := by
  cases s with
  | nil => simp [splitOnChar]
  | cons c rest =>
    simp only [splitOnChar]
    split
    · simp
    · split <;> simp

theorem joinNL_cons_of_ne_nil (l : List Char) (rest : List (List Char)) (h : rest ≠ []) :
    joinNL (l :: rest) = l ++ '\n' :: joinNL rest := by
  match rest with
  | r :: rs => rfl

theorem joinNL_cons_head (c : Char) (r : List Char) (rs : List (List Char)) :
    joinNL ((c :: r) :: rs) = c :: joinNL (r :: rs) := by
  cases rs with
  | nil => rfl
  | cons r2 rs2 => rfl

/-- `split("\n")` and `join("\n")` round-trip. -/
theorem joinNL_splitOnChar (s : List Char) : joinNL (splitOnChar '\n' s) = s := by
  induction s with
  | nil => rfl
  | cons c rest ih =>
    simp only [splitOnChar]
    cases h : splitOnChar '\n' rest with
    | nil => exact absurd h (splitOnChar_ne_nil _ _)
    | cons r rs =>
      rw [h] at ih
      show joinNL (if c = '\n' then [] :: r :: rs else (c :: r) :: rs) = c :: rest
      by_cases hc : c = '\n'
      · subst hc
        rw [if_pos rfl, joinNL_cons_of_ne_nil _ _ (List.cons_ne_nil _ _)]
        simp [ih]
      · rw [if_neg hc, joinNL_cons_head]
        simp [ih]

/-- The per-line `length + 1` sum over the dropped prefix plus the length of
the joined suffix is the length of the whole joined list. -/
theorem sum_take_joinNL :
    ∀ (lines : List (List Char)) (k : Nat), k < lines.length →
      ((((lines.take k).map (fun l => l.length + 1)).sum + (joinNL (lines.drop k)).length)
        = (joinNL lines).length) := by
  intro lines
  induction lines with
  | nil => intro k hk; simp at hk
  | cons l rest ih =>
    intro k hk
    cases k with
    | zero => simp
    | succ k' =>
      have hk' : k' < rest.length := by simpa using hk
      have hrest : rest ≠ [] := by
        intro hcontra
        rw [hcontra] at hk'
        simp at hk'
      rw [joinNL_cons_of_ne_nil _ _ hrest]
      simp only [List.take_succ_cons, List.map_cons, List.sum_cons, List.drop_succ_cons,
        List.length_append, List.length_cons]
      have := ih k' hk'
      omega

/-- Spec formulation: the last `maxLines` newline-separated lines of the
combined decoded output, joined back with newlines. -/
def specKeptText (p : ProcessInfo) (maxLines : Nat) : List Char :=
  joinNL ((splitOnChar '\n' (combinedOutputText p)).drop
    ((splitOnChar '\n' (combinedOutputText p)).length - maxLines))

/-- Spec formulation: the truncated character count is the difference in
length between the full combined text and the kept tail. -/
def specTruncCount (p : ProcessInfo) (maxLines : Nat) : Nat :=
  (combinedOutputText p).length - (specKeptText p maxLines).length

/-- Spec formulation: drop every range starting before the truncation point
and shift the retained ranges down by the truncated character count. -/
def specFoldedRanges (p : ProcessInfo) (maxLines : Nat) : List HighlightRange :=
  ((combinedOutputRanges p).filter (fun r => specTruncCount p maxLines ≤ r.start)).map
    (fun r => { r with start := r.start - specTruncCount p maxLines,
                       endPos := r.endPos - specTruncCount p maxLines })

/-- C4: with a current process and `folded = true` (and a line cap honouring
the documented `maxOutputLines() ≥ 1` contract), `output()` returns exactly
the last `maxOutputLines` lines joined by newlines when the combined output
has more lines than the cap — dropping every range starting before the
truncation point and shifting the retained ranges down by the truncated
character count — and returns text and ranges unchanged when the line count
is within the cap. -/
theorem output_folds_to_last_lines (t : Terminal) (p : ProcessInfo)
    (hp : t.currentProcess = some p) (hf : t.folded = true) (hm : 1 ≤ t.maxOutputLines) :
    (t.maxOutputLines < (splitOnChar '\n' (combinedOutputText p)).length →
       t.output = ⟨specKeptText p t.maxOutputLines, specFoldedRanges p t.maxOutputLines⟩) ∧
    ((splitOnChar '\n' (combinedOutputText p)).length ≤ t.maxOutputLines →
       t.output = ⟨combinedOutputText p, combinedOutputRanges p⟩) := by
  constructor
  · intro hbig
    have hnle : ¬ ((splitOnChar '\n' (combinedOutputText p)).length ≤ t.maxOutputLines) := by
      omega
    have hslice : jsSliceLast (splitOnChar '\n' (combinedOutputText p)) t.maxOutputLines
        = (splitOnChar '\n' (combinedOutputText p)).drop
            ((splitOnChar '\n' (combinedOutputText p)).length - t.maxOutputLines) := by
      unfold jsSliceLast
      rw [if_neg (by omega)]
    have hoff :
        (((splitOnChar '\n' (combinedOutputText p)).take
            ((splitOnChar '\n' (combinedOutputText p)).length - t.maxOutputLines)).map
              (fun l => l.length + 1)).sum
          = specTruncCount p t.maxOutputLines := by
      have hk : (splitOnChar '\n' (combinedOutputText p)).length - t.maxOutputLines
          < (splitOnChar '\n' (combinedOutputText p)).length := by omega
      have hsum := sum_take_joinNL (splitOnChar '\n' (combinedOutputText p))
        ((splitOnChar '\n' (combinedOutputText p)).length - t.maxOutputLines) hk
      rw [joinNL_splitOnChar] at hsum
      unfold specTruncCount specKeptText
      omega
    unfold Terminal.output
    rw [hp]
    simp only [hf, Bool.not_true, Bool.false_eq_true, if_false, if_neg hnle, hslice, hoff]
    rfl
  · intro hsmall
    unfold Terminal.output
    rw [hp]
    simp only [hf, Bool.not_true, Bool.false_eq_true, if_false, if_pos hsmall]

def c4p : ProcessInfo :=
  ⟨1, 0, none, none, ⟨"a\nb\nc".data, "a\nb\nc".data, []⟩, ANSIText.new, []⟩

def c4t : Terminal := ⟨some c4p, 1, [], true⟩

theorem output_folds_to_last_lines_witness :
    c4t.currentProcess = some c4p ∧ c4t.folded = true ∧ 1 ≤ c4t.maxOutputLines ∧
    ((c4t.maxOutputLines < (splitOnChar '\n' (combinedOutputText c4p)).length →
       c4t.output = ⟨specKeptText c4p c4t.maxOutputLines, specFoldedRanges c4p c4t.maxOutputLines⟩) ∧
     ((splitOnChar '\n' (combinedOutputText c4p)).length ≤ c4t.maxOutputLines →
       c4t.output = ⟨combinedOutputText c4p, combinedOutputRanges c4p⟩)) :=
  ⟨rfl, rfl, by decide, output_folds_to_last_lines c4t c4p rfl rfl (by decide)⟩

/-! ### C5: the `...` ellipsis in `status()` -/

/-- `n` successive `toggleFold()` calls. -/
def toggleFoldIter : Nat → Terminal → Terminal
  | 0, t => t
  | n + 1, t => toggleFoldIter n t.toggleFold

theorem status_toggleFold (t : Terminal) (now : Nat) :
    t.toggleFold.status now = t.status now := rfl

theorem outputLarge_toggleFold (t : Terminal) :
    t.toggleFold.outputLarge = t.outputLarge := rfl

theorem status_toggleFoldIter (n : Nat) (t : Terminal) (now : Nat) :
    (toggleFoldIter n t).status now = t.status now := by
  induction n generalizing t with
  | zero => rfl
  | succ n ih => rw [toggleFoldIter, ih, status_toggleFold]

theorem digitChar_ne_dot : ∀ k, k < 16 → Nat.digitChar k ≠ '.' := by decide

theorem natRepr_no_dot (n : Nat) : '.' ∉ natRepr n := by
  induction n using Nat.strong_induction_on with
  | _ n ih =>
    rw [natRepr]
    split
    next h =>
      intro hmem
      exact digitChar_ne_dot n (by omega) (List.mem_singleton.mp hmem).symm
    next h =>
      intro hmem
      rcases List.mem_append.mp hmem with h1 | h2
      · exact ih (n / 10) (Nat.div_lt_self (by omega) (by omega)) h1
      · exact digitChar_ne_dot (n % 10) (by omega) (List.mem_singleton.mp h2).symm

theorem intRepr_no_dot (i : Int) : '.' ∉ intRepr i := by
  unfold intRepr
  split
  · intro hmem
    rcases List.mem_cons.mp hmem with h1 | h2
    · exact absurd h1 (by decide)
    · exact natRepr_no_dot _ h2
  · exact natRepr_no_dot _

theorem formatRuntime_no_dot (t : Terminal) (now : Nat) : '.' ∉ t.formatRuntime now := by
  unfold Terminal.formatRuntime
  split
  · decide
  · dsimp only
    split
    · intro hmem
      rcases List.mem_append.mp hmem with h1 | h2
      · exact intRepr_no_dot _ h1
      · revert h2
        decide
    · intro hmem
      simp only [List.mem_append] at hmem
      rcases hmem with ((h1 | h2) | h3) | h4
      · exact intRepr_no_dot _ h1
      · revert h2
        decide
      · exact intRepr_no_dot _ h3
      · revert h4
        decide

theorem dot_mem_of_ellipsis_within {s : List Char} (h : "...".data <:+: s) : '.' ∈ s := by
  obtain ⟨u, v, huv⟩ := h
  rw [← huv]
  simp

/-- With a small combined output the status text contains no `.` at all:
every piece (the fixed format text, the runtime, the status and exit-code
digits) is dot-free. -/
theorem status_no_dot_of_small (t : Terminal) (now : Nat) (p : ProcessInfo)
    (hp : t.currentProcess = some p) (hL : t.outputLarge = false) :
    '.' ∉ (t.status now).text := by
  intro hmem
  unfold Terminal.status at hmem
  rw [hp] at hmem
  simp only [hL, Bool.false_eq_true, if_false, List.append_nil, List.mem_append] at hmem
  rcases hmem with (((h1 | h2) | h3) | h4) | h5
  · revert h1
    decide
  · exact formatRuntime_no_dot t now h2
  · cases hec : p.exitCode with
    | none => rw [hec] at h3; simp at h3
    | some code =>
      rw [hec] at h3
      rcases List.mem_append.mp h3 with h6 | h7
      · revert h6
        decide
      · exact intRepr_no_dot _ h7
  · revert h4
    decide
  · revert h5
    decide

theorem status_ellipsis_of_large (t : Terminal) (now : Nat) (p : ProcessInfo)
    (hp : t.currentProcess = some p) (hL : t.outputLarge = true) :
    "...".data <:+: (t.status now).text := by
  unfold Terminal.status
  rw [hp]
  simp only [hL, if_true]
  refine ⟨"= time: ".data ++ t.formatRuntime now ++
    (match p.exitCode with
     | some code => " status: ".data ++ intRepr code
     | none => []) ++ " ".data, "=".data, ?_⟩
  simp [List.append_assoc]

/-- C5: the status text contains the `"..."` ellipsis exactly when the
combined decoded stdout+stderr output has strictly more lines than
`maxOutputLines()`; the check reads only the decoders and the line cap, never
the `folded` flag, so any number of `toggleFold()` calls leaves the ellipsis
unchanged. -/
theorem status_ellipsis_iff_outputLarge (t : Terminal) (now : Nat)
    (hp : t.currentProcess.isSome = true) :
    (("...".data <:+: (t.status now).text) ↔ t.outputLarge = true) ∧
    (∀ n : Nat,
      ("...".data <:+: ((toggleFoldIter n t).status now).text) ↔ t.outputLarge = true) := by
  obtain ⟨p, hpp⟩ := Option.isSome_iff_exists.mp hp
  have hiff : ("...".data <:+: (t.status now).text) ↔ t.outputLarge = true := by
    constructor
    · intro hinf
      by_contra hL
      have hLf : t.outputLarge = false := by
        cases hv : t.outputLarge
        · rfl
        · exact absurd hv hL
      exact status_no_dot_of_small t now p hpp hLf (dot_mem_of_ellipsis_within hinf)
    · intro hL
      exact status_ellipsis_of_large t now p hpp hL
  refine ⟨hiff, fun n => ?_⟩
  rw [status_toggleFoldIter]
  exact hiff

theorem status_ellipsis_iff_outputLarge_witness :
    ((Terminal.mk (some ⟨1, 0, none, none, ⟨"a\nb".data, "a\nb".data, []⟩, ANSIText.new, []⟩)
        1 [] true).currentProcess.isSome = true) ∧
    ((("...".data <:+: ((Terminal.mk
          (some ⟨1, 0, none, none, ⟨"a\nb".data, "a\nb".data, []⟩, ANSIText.new, []⟩)
          1 [] true).status 0).text) ↔ (Terminal.mk
          (some ⟨1, 0, none, none, ⟨"a\nb".data, "a\nb".data, []⟩, ANSIText.new, []⟩)
          1 [] true).outputLarge = true) ∧
     (∀ n : Nat,
       ("...".data <:+: ((toggleFoldIter n (Terminal.mk
           (some ⟨1, 0, none, none, ⟨"a\nb".data, "a\nb".data, []⟩, ANSIText.new, []⟩)
           1 [] true)).status 0).text) ↔ (Terminal.mk
           (some ⟨1, 0, none, none, ⟨"a\nb".data, "a\nb".data, []⟩, ANSIText.new, []⟩)
           1 [] true).outputLarge = true)) :=
  ⟨by decide, status_ellipsis_iff_outputLarge _ 0 (by decide)⟩

end TerminalEditor
